import Mathlib

/-!
Verification of `src/examples/pyeda/python_code/common.py` from Lipen/sat-nexus.

The file converts a batch of "cubes" (lists of signed integer literals) into a
minimized, canonically ordered CNF clause list:

  backdoor_to_clauses: cubes_to_dnf → minimize_dnf (espresso) → negate + to_cnf
  → cnf_to_clauses (sort literals by magnitude, sort clauses by (length, abs tuple)).

The pyeda Boolean-algebra engine and the espresso minimizer are external
collaborators; they are modelled as explicit parameters (`minimize`, `toCNF`)
or, where the pipeline relies on a concrete piece of their behaviour
(`exprvar`, variable `indices`, the structural DNF/CNF predicates,
`encode_cnf` clause extraction), as shallow definitions faithful to that
behaviour.  Python exceptions become an explicit error type `Err`.
-/

namespace SatNexus

/-- Modelled from the spec: a pyeda expression variable, identified by a name
and a tuple of integer indices.  `exprvar("x", v)` produces the variable with
name `"x"` and indices `(v,)`; the pipeline later reads `indices[0]` back. -/
structure Var where
  name : String
  indices : List Nat
deriving DecidableEq, Repr

/-- Modelled from the spec: pyeda `exprvar(name, v)` — variable creation in the
external Boolean-algebra engine.  Variables are interned by (name, indices),
so creation is deterministic; the call-scoped `var_map` cache in
`cubes_to_dnf` therefore has no semantic effect and is not modelled. -/
def exprvar (name : String) (v : Nat) : Var :=
  ⟨name, [v]⟩

/-- Modelled from the spec: the external engine's Boolean expressions, as the
pipeline builds and consumes them: variables, negation, n-ary conjunction and
n-ary disjunction.  (pyeda additionally auto-simplifies, e.g. collapsing
singleton `And`/`Or`; that only changes the structural shape handed to the
opaque oracle parameters and is not modelled.) -/
inductive Expr where
  | var (x : Var)
  | not (e : Expr)
  | and (es : List Expr)
  | or (es : List Expr)

/-- Truth-value of an expression under an assignment to variables. -/
def eval (σ : Var → Bool) : Expr → Bool
  | .var x => σ x
  | .not e => !(eval σ e)
  | .and es => es.attach.all (fun e => eval σ e.1)
  | .or es => es.attach.any (fun e => eval σ e.1)
decreasing_by
  all_goals first
    | decreasing_tactic
    | { have h := List.sizeOf_lt_of_mem e.2
        simp only [Expr.and.sizeOf_spec, Expr.or.sizeOf_spec]
        omega }

/-- The variables occurring in an expression (with multiplicity; only
membership is used). -/
def exprVars : Expr → List Var
  | .var x => [x]
  | .not e => exprVars e
  | .and es => es.attach.flatMap (fun e => exprVars e.1)
  | .or es => es.attach.flatMap (fun e => exprVars e.1)
decreasing_by
  all_goals first
    | decreasing_tactic
    | { have h := List.sizeOf_lt_of_mem e.2
        simp only [Expr.and.sizeOf_spec, Expr.or.sizeOf_spec]
        omega }

/-- Modelled from the spec: pyeda's structural literal test — a variable or a
negated variable. -/
def isLit : Expr → Bool
  | .var _ => true
  | .not (.var _) => true
  | _ => false

/-- Modelled from the spec: a DNF term — a conjunction of literals, or a bare
literal. -/
def isTerm : Expr → Bool
  | .and es => es.all isLit
  | e => isLit e

/-- Modelled from the spec: pyeda `is_dnf` — a disjunction of terms, a single
term, or a literal. -/
def is_dnf : Expr → Bool
  | .or es => es.all isTerm
  | e => isTerm e

/-- Modelled from the spec: a CNF clause — a disjunction of literals, or a
bare literal. -/
def isClause : Expr → Bool
  | .or es => es.all isLit
  | e => isLit e

/-- Modelled from the spec: pyeda `is_cnf` — a conjunction of clauses, a
single clause, or a literal. -/
def is_cnf : Expr → Bool
  | .and es => es.all isClause
  | e => isClause e

/-- The Python exceptions the pipeline can raise, made explicit. -/
inductive Err where
  /-- `IndexError` from `cubes[0]` on an empty batch. -/
  | indexError
  /-- `AssertionError` from the cube-consistency assert, carrying the
  offending cube (the Input-Contract Violation). -/
  | assertCube (cube : List Int)
  /-- `AssertionError` from `assert dnf.is_dnf()`. -/
  | assertDnf
  /-- `ValueError` from unpacking `(min_dnf,) = minimize_dnf(dnf)` when the
  oracle returns a collection of size ≠ 1 (the cardinality error). -/
  | unpackError
  /-- `AssertionError` from `assert cnf.is_cnf()`. -/
  | assertCnf
deriving DecidableEq, Repr

/-- `bool2int` from the source. -/
def bool2int (b : Bool) : Int :=
  if b then 1 else 0

/-- `bool2sign` from the source. -/
def bool2sign (b : Bool) : Int :=
  if b then -1 else 1

/-- `signed` from the source. -/
def signed (x : Int) (s : Bool) : Int :=
  bool2sign s * x

/-- The encoding of one input literal inside `cubes_to_dnf`'s inner loop:
`~var_map[var]` for a negative literal, `var_map[var]` otherwise, where the
handle for magnitude `v` is `exprvar("x", v)`. -/
def litE (lit : Int) : Expr :=
  if lit < 0 then .not (.var (exprvar "x" lit.natAbs)) else .var (exprvar "x" lit.natAbs)

/-- `cubes_to_dnf` from the source.  `cubes[0]` on an empty batch raises
`IndexError`; the per-cube assert compares the positional list of magnitudes
with the first cube's and raises on the first offender; the result is the
disjunction of the per-cube conjunctions, checked by `assert dnf.is_dnf()`. -/
def cubes_to_dnf (cubes : List (List Int)) : Except Err Expr :=
  match cubes with
  | [] => .error .indexError
  | c0 :: _ =>
    let vars0 := c0.map Int.natAbs
    match cubes.find? (fun c => decide (c.map Int.natAbs ≠ vars0)) with
    | some c => .error (.assertCube c)
    | none =>
      let dnf := Expr.or (cubes.map (fun c => Expr.and (c.map litE)))
      if is_dnf dnf then .ok dnf else .error .assertDnf

/-- `minimize_dnf` from the source: a thin passthrough to the external
espresso oracle, which returns a collection of results. -/
def minimize_dnf (espresso : Expr → List Expr) (dnf : Expr) : List Expr :=
  espresso dnf

/-- The integer a single CNF literal is encoded to:
`signed(litmap[abs(lit)].indices[0], lit < 0)` in the source, i.e. the
variable's first index with the literal's polarity as sign.  (pyeda's
`indices[0]` would raise on an empty index tuple; `headD 0` stands in for it —
every variable this pipeline creates has a singleton index tuple.) -/
def litToInt : Expr → Int
  | .var x => signed (x.indices.headD 0) false
  | .not (.var x) => signed (x.indices.headD 0) true
  | _ => 0

/-- Modelled from the spec: the literals of one structural CNF clause, as
pyeda `encode_cnf` hands them out — the disjuncts of an `Or`, or the clause
itself when it is a bare literal. -/
def clauseLits : Expr → List Expr
  | .or es => es
  | .var x => [.var x]
  | .not e => [.not e]
  | .and es => [.and es]

/-- Modelled from the spec: the structural clauses of a CNF expression, as
pyeda `encode_cnf` hands them out — the conjuncts of an `And`, or the whole
expression as a single clause. -/
def extractClauses : Expr → List (List Expr)
  | .and es => es.map clauseLits
  | .var x => [clauseLits (.var x)]
  | .not e => [clauseLits (.not e)]
  | .or es => [clauseLits (.or es)]

/-- The comparison behind `c.sort(key=lambda x: abs(x))`: literal magnitudes,
ascending. -/
def litLe (a b : Int) : Prop :=
  a.natAbs ≤ b.natAbs

instance decLitLe : DecidableRel litLe :=
  fun a b => Nat.decLe a.natAbs b.natAbs

/-- Lexicographic `≤` on tuples of naturals, as Python compares the key
tuples `tuple(map(abs, x))`. -/
def tupLe (x y : List Nat) : Bool :=
  match x, y with
  | [], _ => true
  | _ :: _, [] => false
  | u :: us, v :: vs => if u < v then true else if v < u then false else tupLe us vs

/-- The comparison behind `clauses.sort(key=lambda x: (len(x), tuple(map(abs, x))))`:
Python compares the key pairs lexicographically. -/
def clauseLe (a b : List Int) : Prop :=
  a.length < b.length ∨
    (a.length = b.length ∧ tupLe (a.map Int.natAbs) (b.map Int.natAbs) = true)

instance decClauseLe : DecidableRel clauseLe := by
  unfold clauseLe
  exact fun a b => inferInstance

/-- `cnf_to_clauses` from the source: assert the CNF shape, re-encode every
literal of every clause to a signed integer, sort each clause by literal
magnitude, then sort the clause list by (length, magnitude tuple).  Python's
`list.sort` is a stable sort on the key; `List.insertionSort` with the
key-comparison is the same stable sort. -/
def cnf_to_clauses (cnf : Expr) : Except Err (List (List Int)) :=
  if is_cnf cnf then
    let result := (extractClauses cnf).map
      (fun clause => List.insertionSort litLe (clause.map litToInt))
    .ok (List.insertionSort clauseLe result)
  else
    .error .assertCnf

/-- The destructuring `(min_dnf,) = minimize_dnf(dnf)`: succeeds only on a
one-element collection, otherwise raises `ValueError`. -/
def unpackOne : List Expr → Except Err Expr
  | [m] => .ok m
  | _ => .error .unpackError

/-- `backdoor_to_clauses` from the source, with the two external collaborators
(the espresso minimizer and the engine's `to_cnf` method) as explicit
parameters: encode the cubes, unpack the single minimized cover, negate,
convert to CNF, encode the clauses.  Any stage's exception aborts the rest. -/
def backdoor_to_clauses (minimize : Expr → List Expr) (toCNF : Expr → Expr)
    (easy : List (List Int)) : Except Err (List (List Int)) :=
  (cubes_to_dnf easy).bind (fun dnf =>
    (unpackOne (minimize_dnf minimize dnf)).bind (fun m =>
      cnf_to_clauses (toCNF (Expr.not m))))

/-- `backdoor_to_clauses` instrumented with a flag recording whether the
minimizer oracle was ever invoked, for the temporal claims. -/
def backdoor_to_clauses_traced (minimize : Expr → List Expr) (toCNF : Expr → Expr)
    (easy : List (List Int)) : Except Err (List (List Int)) × Bool :=
  match cubes_to_dnf easy with
  | .error e => (.error e, false)
  | .ok dnf =>
    ((unpackOne (minimize_dnf minimize dnf)).bind (fun m =>
      cnf_to_clauses (toCNF (Expr.not m))), true)

/-- Truth-value of a signed-integer literal: magnitude names the variable,
sign the polarity (a literal `0` reads the variable with id 0 positively,
exactly as the code would). -/
def litEval (σ : Nat → Bool) (l : Int) : Bool :=
  if l < 0 then !(σ l.natAbs) else σ l.natAbs

/-- Truth-value of an integer clause: disjunction of its literals. -/
def clauseEval (σ : Nat → Bool) (c : List Int) : Bool :=
  c.any (litEval σ)

/-- Truth-value of an integer clause list: conjunction of its clauses. -/
def clausesEval (σ : Nat → Bool) (cs : List (List Int)) : Bool :=
  cs.all (clauseEval σ)

/-- Truth-value of the input batch read as a DNF: disjunction of the cubes,
each cube the conjunction of its literals. -/
def cubesEval (σ : Nat → Bool) (cubes : List (List Int)) : Bool :=
  cubes.any (fun c => c.all (litEval σ))

/-- The variable magnitudes of the input batch. -/
def inputMags (cubes : List (List Int)) : List Nat :=
  cubes.flatMap (fun c => c.map Int.natAbs)

/-- The external variable id recovered from a handle: its first index
(`indices[0]`), the quantity `cnf_to_clauses` reads back. -/
def varIdx (x : Var) : Nat :=
  x.indices.headD 0

lemma attach_all {α : Type} (l : List α) (f : α → Bool) :
    l.attach.all (fun x => f x.1) = l.all f := by
  rw [Bool.eq_iff_iff]
  simp only [List.all_eq_true, List.mem_attach, true_implies, Subtype.forall]

lemma attach_any {α : Type} (l : List α) (f : α → Bool) :
    l.attach.any (fun x => f x.1) = l.any f := by
  rw [Bool.eq_iff_iff]
  simp only [List.any_eq_true, List.mem_attach, true_and, Subtype.exists]
  constructor
  · rintro ⟨a, h, hf⟩; exact ⟨a, h, hf⟩
  · rintro ⟨a, h, hf⟩; exact ⟨a, h, hf⟩

lemma map_all {α β : Type} (l : List α) (f : α → β) (p : β → Bool) :
    (l.map f).all p = l.all (fun x => p (f x)) := by
  induction l with
  | nil => rfl
  | cons a t ih => simp [List.all_cons, ih]

lemma map_any {α β : Type} (l : List α) (f : α → β) (p : β → Bool) :
    (l.map f).any p = l.any (fun x => p (f x)) := by
  induction l with
  | nil => rfl
  | cons a t ih => simp [List.any_cons, ih]

@[simp] lemma eval_var (σ : Var → Bool) (x : Var) : eval σ (.var x) = σ x := by
  rw [eval]

@[simp] lemma eval_not (σ : Var → Bool) (e : Expr) : eval σ (.not e) = !(eval σ e) := by
  rw [eval]

@[simp] lemma eval_and (σ : Var → Bool) (es : List Expr) :
    eval σ (.and es) = es.all (eval σ) := by
  rw [eval, attach_all]

@[simp] lemma eval_or (σ : Var → Bool) (es : List Expr) :
    eval σ (.or es) = es.any (eval σ) := by
  rw [eval, attach_any]

@[simp] lemma exprVars_var (x : Var) : exprVars (.var x) = [x] := by
  rw [exprVars]

@[simp] lemma exprVars_not (e : Expr) : exprVars (.not e) = exprVars e := by
  rw [exprVars]

lemma mem_exprVars_and {x : Var} {es : List Expr} :
    x ∈ exprVars (.and es) ↔ ∃ e ∈ es, x ∈ exprVars e := by
  rw [exprVars]
  simp only [List.mem_flatMap, List.mem_attach, true_and, Subtype.exists]
  constructor
  · rintro ⟨a, h, hf⟩; exact ⟨a, h, hf⟩
  · rintro ⟨a, h, hf⟩; exact ⟨a, h, hf⟩

lemma mem_exprVars_or {x : Var} {es : List Expr} :
    x ∈ exprVars (.or es) ↔ ∃ e ∈ es, x ∈ exprVars e := by
  rw [exprVars]
  simp only [List.mem_flatMap, List.mem_attach, true_and, Subtype.exists]
  constructor
  · rintro ⟨a, h, hf⟩; exact ⟨a, h, hf⟩
  · rintro ⟨a, h, hf⟩; exact ⟨a, h, hf⟩

@[simp] lemma signed_false (x : Int) : signed x false = x := by
  simp [signed, bool2sign]

@[simp] lemma signed_true (x : Int) : signed x true = -x := by
  simp [signed, bool2sign]

lemma litE_isLit (l : Int) : isLit (litE l) = true := by
  unfold litE
  split <;> rfl

lemma exprVars_litE (l : Int) : exprVars (litE l) = [exprvar "x" l.natAbs] := by
  unfold litE
  split <;> simp

/-- The DNF built from any batch passes the `assert dnf.is_dnf()` check. -/
lemma is_dnf_built (cubes : List (List Int)) :
    is_dnf (Expr.or (cubes.map (fun c => Expr.and (c.map litE)))) = true := by
  rw [is_dnf, map_all, List.all_eq_true]
  intro c _
  rw [isTerm, map_all, List.all_eq_true]
  intro l _
  exact litE_isLit l

/-- `cubes_to_dnf` on a consistent batch: no assert fires and the result is
the disjunction of the per-cube conjunctions. -/
lemma cubes_to_dnf_ok (c0 : List Int) (rest : List (List Int))
    (h : ∀ c ∈ c0 :: rest, c.map Int.natAbs = c0.map Int.natAbs) :
    cubes_to_dnf (c0 :: rest) =
      .ok (Expr.or ((c0 :: rest).map (fun c => Expr.and (c.map litE)))) := by
  have hf : (c0 :: rest).find? (fun c => decide (c.map Int.natAbs ≠ c0.map Int.natAbs)) = none := by
    rw [List.find?_eq_none]
    intro x hx
    simp [h x hx]
  unfold cubes_to_dnf
  simp only [hf, is_dnf_built, if_true]

/-- `cubes_to_dnf` with an inconsistent cube: the assert fires on the first
offender found. -/
lemma cubes_to_dnf_err (c0 : List Int) (rest : List (List Int)) (c : List Int)
    (hf : (c0 :: rest).find? (fun c => decide (c.map Int.natAbs ≠ c0.map Int.natAbs)) = some c) :
    cubes_to_dnf (c0 :: rest) = .error (.assertCube c) := by
  unfold cubes_to_dnf
  simp only [hf]

/-- Inversion: a successful `cubes_to_dnf` run means a non-empty batch whose
cubes all agree positionally on magnitudes, and pins down the DNF shape. -/
lemma cubes_to_dnf_ok_inv {cubes : List (List Int)} {dnf : Expr}
    (h : cubes_to_dnf cubes = .ok dnf) :
    ∃ c0 rest, cubes = c0 :: rest ∧
      (∀ c ∈ cubes, c.map Int.natAbs = c0.map Int.natAbs) ∧
      dnf = Expr.or (cubes.map (fun c => Expr.and (c.map litE))) := by
  match cubes with
  | [] => exact absurd h (by simp [cubes_to_dnf])
  | c0 :: rest =>
    refine ⟨c0, rest, rfl, ?_⟩
    rcases hf : (c0 :: rest).find? (fun c => decide (c.map Int.natAbs ≠ c0.map Int.natAbs)) with _ | c
    · have hall : ∀ c ∈ c0 :: rest, c.map Int.natAbs = c0.map Int.natAbs := by
        rw [List.find?_eq_none] at hf
        intro x hx
        have := hf x hx
        simpa using this
      have := cubes_to_dnf_ok c0 rest hall
      rw [this] at h
      exact ⟨hall, (Except.ok.inj h).symm⟩
    · rw [cubes_to_dnf_err c0 rest c hf] at h
      exact absurd h (by simp)

lemma all_congr {α : Type} {l : List α} {p q : α → Bool} (h : ∀ a ∈ l, p a = q a) :
    l.all p = l.all q := by
  rw [Bool.eq_iff_iff, List.all_eq_true, List.all_eq_true]
  exact ⟨fun hp x hx => (h x hx) ▸ hp x hx, fun hq x hx => (h x hx).symm ▸ hq x hx⟩

lemma any_congr {α : Type} {l : List α} {p q : α → Bool} (h : ∀ a ∈ l, p a = q a) :
    l.any p = l.any q := by
  rw [Bool.eq_iff_iff, List.any_eq_true, List.any_eq_true]
  exact ⟨fun ⟨x, hx, hp⟩ => ⟨x, hx, (h x hx) ▸ hp⟩,
    fun ⟨x, hx, hq⟩ => ⟨x, hx, (h x hx).symm ▸ hq⟩⟩

/-- Encoding one input literal and reading it under the induced Nat
assignment agrees with the signed-integer literal semantics. -/
lemma litE_eval (σ : Nat → Bool) (l : Int) :
    eval (fun x => σ (varIdx x)) (litE l) = litEval σ l := by
  unfold litE litEval
  split <;> simp [varIdx, exprvar]

/-- The built DNF means exactly the disjunction of the input cubes. -/
lemma eval_dnf_built (σ : Nat → Bool) (cubes : List (List Int)) :
    eval (fun x => σ (varIdx x)) (Expr.or (cubes.map (fun c => Expr.and (c.map litE)))) =
      cubesEval σ cubes := by
  rw [eval_or, map_any, cubesEval]
  apply any_congr
  intro c _
  rw [eval_and, map_all]
  apply all_congr
  intro l _
  exact litE_eval σ l

/-- Every variable of the built DNF is `exprvar "x" v` for an input magnitude. -/
lemma mem_exprVars_dnf {cubes : List (List Int)} {x : Var}
    (hx : x ∈ exprVars (Expr.or (cubes.map (fun c => Expr.and (c.map litE))))) :
    ∃ v ∈ inputMags cubes, x = exprvar "x" v := by
  rw [mem_exprVars_or] at hx
  obtain ⟨e, he, hxe⟩ := hx
  rw [List.mem_map] at he
  obtain ⟨c, hc, rfl⟩ := he
  rw [mem_exprVars_and] at hxe
  obtain ⟨le, hle, hxl⟩ := hxe
  rw [List.mem_map] at hle
  obtain ⟨l, hl, rfl⟩ := hle
  rw [exprVars_litE] at hxl
  simp only [List.mem_singleton] at hxl
  subst hxl
  refine ⟨l.natAbs, ?_, rfl⟩
  rw [inputMags, List.mem_flatMap]
  exact ⟨c, hc, List.mem_map.2 ⟨l, hl, rfl⟩⟩

lemma clauseLits_isLit {e : Expr} (he : isClause e = true) :
    ∀ l ∈ clauseLits e, isLit l = true := by
  intro l hl
  cases e with
  | or es =>
    rw [isClause, List.all_eq_true] at he
    exact he l hl
  | var x =>
    simp only [clauseLits, List.mem_singleton] at hl
    subst hl
    rfl
  | not e =>
    simp only [clauseLits, List.mem_singleton] at hl
    subst hl
    exact he
  | and es =>
    simp only [clauseLits, List.mem_singleton] at hl
    subst hl
    exact he

lemma clauseLits_vars {e l : Expr} (hl : l ∈ clauseLits e) {x : Var}
    (hx : x ∈ exprVars l) : x ∈ exprVars e := by
  cases e with
  | or es => exact mem_exprVars_or.2 ⟨l, hl, hx⟩
  | var v =>
    simp only [clauseLits, List.mem_singleton] at hl
    subst hl
    exact hx
  | not e =>
    simp only [clauseLits, List.mem_singleton] at hl
    subst hl
    exact hx
  | and es =>
    simp only [clauseLits, List.mem_singleton] at hl
    subst hl
    exact hx

lemma extract_isLit {cnf : Expr} (hc : is_cnf cnf = true) :
    ∀ cl ∈ extractClauses cnf, ∀ l ∈ cl, isLit l = true := by
  intro cl hcl l hl
  cases cnf with
  | and es =>
    rw [extractClauses, List.mem_map] at hcl
    obtain ⟨e, he, rfl⟩ := hcl
    rw [is_cnf, List.all_eq_true] at hc
    exact clauseLits_isLit (hc e he) l hl
  | or es =>
    simp only [extractClauses, List.mem_singleton] at hcl
    exact clauseLits_isLit (e := Expr.or es) (by simpa [is_cnf] using hc) l
      (hcl ▸ hl)
  | var v =>
    simp only [extractClauses, List.mem_singleton] at hcl
    exact clauseLits_isLit (e := Expr.var v) (by simpa [is_cnf] using hc) l
      (hcl ▸ hl)
  | not e =>
    simp only [extractClauses, List.mem_singleton] at hcl
    exact clauseLits_isLit (e := Expr.not e) (by simpa [is_cnf] using hc) l
      (hcl ▸ hl)

lemma extract_vars {cnf : Expr} {cl : List Expr} (hcl : cl ∈ extractClauses cnf)
    {l : Expr} (hl : l ∈ cl) {x : Var} (hx : x ∈ exprVars l) : x ∈ exprVars cnf := by
  cases cnf with
  | and es =>
    rw [extractClauses, List.mem_map] at hcl
    obtain ⟨e, he, rfl⟩ := hcl
    exact mem_exprVars_and.2 ⟨e, he, clauseLits_vars hl hx⟩
  | or es =>
    simp only [extractClauses, List.mem_singleton] at hcl
    exact clauseLits_vars (e := Expr.or es) (hcl ▸ hl) hx
  | var v =>
    simp only [extractClauses, List.mem_singleton] at hcl
    exact clauseLits_vars (e := Expr.var v) (hcl ▸ hl) hx
  | not e =>
    simp only [extractClauses, List.mem_singleton] at hcl
    exact clauseLits_vars (e := Expr.not e) (hcl ▸ hl) hx

/-- Re-encoding a single CNF literal and reading the integer back agrees with
the expression's truth value, provided the variable's recovered id is
positive (the engine's indices are 1-based). -/
lemma litToInt_var (x : Var) : litToInt (.var x) = (varIdx x : Int) := by
  rw [litToInt, signed_false]
  rfl

lemma litToInt_negvar (x : Var) : litToInt (.not (.var x)) = -(varIdx x : Int) := by
  rw [litToInt, signed_true]
  rfl

lemma litToInt_eval (σ : Nat → Bool) {l : Expr} (hl : isLit l = true)
    (hpos : ∀ x ∈ exprVars l, 1 ≤ varIdx x) :
    litEval σ (litToInt l) = eval (fun x => σ (varIdx x)) l := by
  cases l with
  | var x =>
    rw [litToInt_var, litEval, if_neg (by omega), eval_var]
    simp
  | not e =>
    cases e with
    | var x =>
      have h1 : 1 ≤ varIdx x := hpos x (by simp)
      rw [litToInt_negvar, litEval, if_pos (by omega), eval_not, eval_var]
      simp
    | not e => exact absurd hl (by simp [isLit])
    | and es => exact absurd hl (by simp [isLit])
    | or es => exact absurd hl (by simp [isLit])
  | and es => exact absurd hl (by simp [isLit])
  | or es => exact absurd hl (by simp [isLit])

/-- Re-encoding one structural clause agrees with the clause's truth value. -/
lemma clause_encode_eval (σ : Nat → Bool) {e : Expr} (he : isClause e = true)
    (hpos : ∀ x ∈ exprVars e, 1 ≤ varIdx x) :
    clauseEval σ ((clauseLits e).map litToInt) = eval (fun x => σ (varIdx x)) e := by
  cases e with
  | or es =>
    rw [clauseLits, clauseEval, map_any, eval_or]
    apply any_congr
    intro l hlmem
    rw [isClause, List.all_eq_true] at he
    exact litToInt_eval σ (he l hlmem)
      (fun x hx => hpos x (mem_exprVars_or.2 ⟨l, hlmem, hx⟩))
  | var v =>
    rw [clauseLits, clauseEval]
    simp only [List.map_cons, List.map_nil, List.any_cons, List.any_nil, Bool.or_false]
    exact litToInt_eval σ (by simp [isLit]) hpos
  | not e =>
    rw [clauseLits, clauseEval]
    simp only [List.map_cons, List.map_nil, List.any_cons, List.any_nil, Bool.or_false]
    exact litToInt_eval σ (by simpa [isClause] using he) hpos
  | and es =>
    exact absurd he (by simp [isClause, isLit])

/-- Re-encoding all the structural clauses of a CNF agrees with the CNF's
truth value. -/
lemma cnf_encode_eval (σ : Nat → Bool) {cnf : Expr} (hc : is_cnf cnf = true)
    (hpos : ∀ x ∈ exprVars cnf, 1 ≤ varIdx x) :
    clausesEval σ ((extractClauses cnf).map (fun cl => cl.map litToInt)) =
      eval (fun x => σ (varIdx x)) cnf := by
  cases cnf with
  | and es =>
    rw [extractClauses, clausesEval, List.map_map, map_all, eval_and]
    apply all_congr
    intro e hemem
    rw [is_cnf, List.all_eq_true] at hc
    exact clause_encode_eval σ (hc e hemem)
      (fun x hx => hpos x (mem_exprVars_and.2 ⟨e, hemem, hx⟩))
  | or es =>
    rw [extractClauses, clausesEval]
    simp only [List.map_cons, List.map_nil, List.all_cons, List.all_nil, Bool.and_true]
    exact clause_encode_eval σ (by simpa [is_cnf] using hc) hpos
  | var v =>
    rw [extractClauses, clausesEval]
    simp only [List.map_cons, List.map_nil, List.all_cons, List.all_nil, Bool.and_true]
    exact clause_encode_eval σ (by simpa [is_cnf] using hc) hpos
  | not e =>
    rw [extractClauses, clausesEval]
    simp only [List.map_cons, List.map_nil, List.all_cons, List.all_nil, Bool.and_true]
    exact clause_encode_eval σ (by simpa [is_cnf] using hc) hpos

/-- Clause truth-value is invariant under permuting the literals. -/
lemma clauseEval_perm (σ : Nat → Bool) {c₁ c₂ : List Int} (h : c₁.Perm c₂) :
    clauseEval σ c₁ = clauseEval σ c₂ := by
  rw [clauseEval, clauseEval, Bool.eq_iff_iff]
  simp only [List.any_eq_true]
  exact ⟨fun ⟨x, hx, hf⟩ => ⟨x, h.mem_iff.1 hx, hf⟩,
    fun ⟨x, hx, hf⟩ => ⟨x, h.mem_iff.2 hx, hf⟩⟩

/-- Clause-list truth-value is invariant under permuting the clauses. -/
lemma clausesEval_perm (σ : Nat → Bool) {cs₁ cs₂ : List (List Int)} (h : cs₁.Perm cs₂) :
    clausesEval σ cs₁ = clausesEval σ cs₂ := by
  rw [clausesEval, clausesEval, Bool.eq_iff_iff]
  simp only [List.all_eq_true]
  exact ⟨fun hf x hx => hf x (h.mem_iff.2 hx), fun hf x hx => hf x (h.mem_iff.1 hx)⟩

/-- `cnf_to_clauses` on a structurally valid CNF: the assert passes and the
result is the doubly sorted re-encoding. -/
lemma cnf_to_clauses_of_cnf {cnf : Expr} (hc : is_cnf cnf = true) :
    cnf_to_clauses cnf =
      .ok (((extractClauses cnf).map
        (fun cl => List.insertionSort litLe (cl.map litToInt))).insertionSort clauseLe) := by
  unfold cnf_to_clauses
  simp [hc]

/-- Inversion of a successful `cnf_to_clauses` run. -/
lemma cnf_to_clauses_ok_inv {cnf : Expr} {out : List (List Int)}
    (h : cnf_to_clauses cnf = .ok out) :
    is_cnf cnf = true ∧
      out = ((extractClauses cnf).map
        (fun cl => List.insertionSort litLe (cl.map litToInt))).insertionSort clauseLe := by
  unfold cnf_to_clauses at h
  split at h
  · exact ⟨by assumption, (Except.ok.inj h).symm⟩
  · exact absurd h (by simp)

/-- The clause list a successful `cnf_to_clauses` run returns means exactly
what the CNF expression means, literal ids read through `varIdx`. -/
lemma cnf_to_clauses_eval (σ : Nat → Bool) {cnf : Expr} {out : List (List Int)}
    (h : cnf_to_clauses cnf = .ok out)
    (hpos : ∀ x ∈ exprVars cnf, 1 ≤ varIdx x) :
    clausesEval σ out = eval (fun x => σ (varIdx x)) cnf := by
  obtain ⟨hc, rfl⟩ := cnf_to_clauses_ok_inv h
  rw [clausesEval_perm σ (List.perm_insertionSort _ _)]
  rw [clausesEval, map_all]
  have hcong : ∀ cl ∈ extractClauses cnf,
      clauseEval σ (List.insertionSort litLe (cl.map litToInt)) = clauseEval σ (cl.map litToInt) :=
    fun cl _ => clauseEval_perm σ (List.perm_insertionSort _ _)
  rw [all_congr hcong, ← map_all, ← clausesEval]
  exact cnf_encode_eval σ hc hpos

lemma tupLe_total (x y : List Nat) : tupLe x y = true ∨ tupLe y x = true := by
  induction x generalizing y with
  | nil => left; rfl
  | cons a as ih =>
    cases y with
    | nil => right; rfl
    | cons b bs =>
      rw [tupLe, tupLe]
      rcases Nat.lt_trichotomy a b with h | h | h
      · left; simp [h]
      · subst h
        simp only [Nat.lt_irrefl, if_false]
        exact ih bs
      · right; simp [h]

lemma tupLe_trans {x y z : List Nat} (h1 : tupLe x y = true) (h2 : tupLe y z = true) :
    tupLe x z = true := by
  induction x generalizing y z with
  | nil => rfl
  | cons a as ih =>
    cases y with
    | nil => exact absurd h1 (by rw [tupLe]; simp)
    | cons b bs =>
      cases z with
      | nil => exact absurd h2 (by rw [tupLe]; simp)
      | cons c cs =>
        rw [tupLe] at h1 h2 ⊢
        split_ifs at h1 h2 ⊢ <;>
          first
            | rfl
            | omega
            | exact ih h1 h2

instance totalLitLe : IsTotal Int litLe :=
  ⟨fun a b => Nat.le_total a.natAbs b.natAbs⟩

instance transLitLe : IsTrans Int litLe :=
  ⟨fun _ _ _ h1 h2 => Nat.le_trans h1 h2⟩

instance totalClauseLe : IsTotal (List Int) clauseLe := by
  constructor
  intro a b
  unfold clauseLe
  rcases Nat.lt_trichotomy a.length b.length with h | h | h
  · exact Or.inl (Or.inl h)
  · rcases tupLe_total (a.map Int.natAbs) (b.map Int.natAbs) with ht | ht
    · exact Or.inl (Or.inr ⟨h, ht⟩)
    · exact Or.inr (Or.inr ⟨h.symm, ht⟩)
  · exact Or.inr (Or.inl h)

instance transClauseLe : IsTrans (List Int) clauseLe := by
  constructor
  intro a b c h1 h2
  unfold clauseLe at h1 h2 ⊢
  rcases h1 with h1 | ⟨h1, t1⟩
  · rcases h2 with h2 | ⟨h2, _⟩
    · exact Or.inl (Nat.lt_trans h1 h2)
    · exact Or.inl (h2 ▸ h1)
  · rcases h2 with h2 | ⟨h2, t2⟩
    · exact Or.inl (h1 ▸ h2)
    · exact Or.inr ⟨h1.trans h2, tupLe_trans t1 t2⟩

/-- A failing `cnf_to_clauses` can only fail on its own CNF-shape assert. -/
lemma cnf_to_clauses_error_inv {cnf : Expr} {r : Err}
    (h : cnf_to_clauses cnf = .error r) : r = .assertCnf := by
  unfold cnf_to_clauses at h
  split at h
  · exact absurd h (by simp)
  · exact (Except.error.inj h).symm

@[simp] lemma except_bind_ok {α β : Type} (a : α) (f : α → Except Err β) :
    (Except.ok a : Except Err α).bind f = f a := rfl

@[simp] lemma except_bind_error {α β : Type} (e : Err) (f : α → Except Err β) :
    (Except.error e : Except Err α).bind f = .error e := rfl

/-- Unfolding a run that gets past encoding and unpacking. -/
lemma backdoor_eq_cnf_to_clauses {minimize : Expr → List Expr} {toCNF : Expr → Expr}
    {easy : List (List Int)} {dnf m : Expr}
    (hd : cubes_to_dnf easy = .ok dnf) (hm : minimize_dnf minimize dnf = [m]) :
    backdoor_to_clauses minimize toCNF easy = cnf_to_clauses (toCNF (Expr.not m)) := by
  unfold backdoor_to_clauses
  rw [hd, except_bind_ok, hm]
  rfl

/-- Inversion of a successful `backdoor_to_clauses` run into its stages. -/
lemma backdoor_ok_inv {minimize : Expr → List Expr} {toCNF : Expr → Expr}
    {easy : List (List Int)} {clauses : List (List Int)}
    (h : backdoor_to_clauses minimize toCNF easy = .ok clauses) :
    ∃ dnf m, cubes_to_dnf easy = .ok dnf ∧ minimize_dnf minimize dnf = [m] ∧
      cnf_to_clauses (toCNF (Expr.not m)) = .ok clauses := by
  unfold backdoor_to_clauses at h
  cases hd : cubes_to_dnf easy with
  | error e => rw [hd, except_bind_error] at h; exact absurd h (by simp)
  | ok dnf =>
    rw [hd, except_bind_ok] at h
    cases hm : minimize_dnf minimize dnf with
    | nil => rw [hm] at h; exact absurd h (by simp [unpackOne])
    | cons m rest =>
      cases rest with
      | nil => rw [hm] at h; exact ⟨dnf, m, rfl, hm, by simpa [unpackOne] using h⟩
      | cons m2 r2 => rw [hm] at h; exact absurd h (by simp [unpackOne])

/-- The cube-consistency assert of `cubes_to_dnf` fires exactly when some
cube's positional magnitude list differs from the first cube's. -/
lemma cubes_assertCube_iff (c0 : List Int) (rest : List (List Int)) :
    (∃ c, cubes_to_dnf (c0 :: rest) = .error (.assertCube c)) ↔
      ∃ c ∈ c0 :: rest, c.map Int.natAbs ≠ c0.map Int.natAbs := by
  constructor
  · rintro ⟨c, hc⟩
    rcases hf : (c0 :: rest).find? (fun c => decide (c.map Int.natAbs ≠ c0.map Int.natAbs))
      with _ | c'
    · have hall : ∀ c ∈ c0 :: rest, c.map Int.natAbs = c0.map Int.natAbs := by
        rw [List.find?_eq_none] at hf
        intro x hx
        simpa using hf x hx
      rw [cubes_to_dnf_ok c0 rest hall] at hc
      exact absurd hc (by simp)
    · have hmem := List.mem_of_find?_eq_some hf
      have hpred := List.find?_some hf
      exact ⟨c', hmem, by simpa using hpred⟩
  · rintro ⟨c, hmem, hne⟩
    have hs : ((c0 :: rest).find?
        (fun c => decide (c.map Int.natAbs ≠ c0.map Int.natAbs))).isSome := by
      rw [List.find?_isSome]
      exact ⟨c, hmem, by simpa using hne⟩
    obtain ⟨c', hf⟩ := Option.isSome_iff_exists.1 hs
    exact ⟨c', cubes_to_dnf_err c0 rest c' hf⟩

/-- The pipeline reports the Input-Contract Violation exactly when the cube
encoder does: no later stage can produce that error. -/
lemma backdoor_assertCube_iff_cubes (minimize : Expr → List Expr) (toCNF : Expr → Expr)
    (easy : List (List Int)) (c : List Int) :
    backdoor_to_clauses minimize toCNF easy = .error (.assertCube c) ↔
      cubes_to_dnf easy = .error (.assertCube c) := by
  unfold backdoor_to_clauses
  cases hd : cubes_to_dnf easy with
  | error e =>
    rw [except_bind_error]
    constructor
    · intro h; rw [Except.error.inj h]
    · intro h; rw [Except.error.inj h]
  | ok dnf =>
    rw [except_bind_ok]
    constructor
    · intro h
      cases hm : minimize_dnf minimize dnf with
      | nil => rw [hm] at h; exact absurd h (by simp [unpackOne])
      | cons m rest =>
        cases rest with
        | nil =>
          rw [hm] at h
          simp only [unpackOne, except_bind_ok] at h
          exact absurd (cnf_to_clauses_error_inv h) (by simp)
        | cons m2 r2 => rw [hm] at h; exact absurd h (by simp [unpackOne])
    · intro h
      exact absurd h (by simp)

/-- An identity minimizer oracle: returns its input as the single cover. -/
def minId : Expr → List Expr := fun e => [e]

/-- A degenerate minimizer oracle returning an empty result collection. -/
def minNone : Expr → List Expr := fun _ => []

/-- A constant CNF converter producing the unit clause `¬x1`. -/
def cnfFix1 : Expr → Expr := fun _ => Expr.not (.var (exprvar "x" 1))

/-- A constant CNF converter producing `(x3 ∨ ¬x1) ∧ x2`. -/
def cnfFixW : Expr → Expr :=
  fun _ => Expr.and [.or [.var (exprvar "x" 3), .not (.var (exprvar "x" 1))],
    .var (exprvar "x" 2)]

/-- A constant CNF converter producing the unit clause `x1`. -/
def cnfVar1 : Expr → Expr := fun _ => Expr.var (exprvar "x" 1)

/-- A propagation lemma for a failing cube encoding through the traced
pipeline. -/
lemma traced_err {minimize : Expr → List Expr} {toCNF : Expr → Expr}
    {easy : List (List Int)} {e : Err} (hd : cubes_to_dnf easy = .error e) :
    backdoor_to_clauses_traced minimize toCNF easy = (.error e, false) := by
  unfold backdoor_to_clauses_traced
  rw [hd]

/-- C2: every clause list `backdoor_to_clauses` returns has each clause's
literals in ascending order of absolute value, and the clauses themselves
sorted by (length, tuple of absolute literal values). -/
theorem backdoor_output_sorted (minimize : Expr → List Expr) (toCNF : Expr → Expr)
    (easy : List (List Int)) (clauses : List (List Int))
    (h : backdoor_to_clauses minimize toCNF easy = .ok clauses) :
    (∀ c ∈ clauses, List.Sorted litLe c) ∧ List.Sorted clauseLe clauses := by
  obtain ⟨dnf, m, hd, hm, hc⟩ := backdoor_ok_inv h
  obtain ⟨hcnf, rfl⟩ := cnf_to_clauses_ok_inv hc
  constructor
  · intro c hcmem
    have hmem2 := (List.perm_insertionSort clauseLe _).mem_iff.1 hcmem
    rw [List.mem_map] at hmem2
    obtain ⟨cl, _, rfl⟩ := hmem2
    exact List.sorted_insertionSort litLe _
  · exact List.sorted_insertionSort clauseLe _

/-- C2 witness: the spec's example batch, run with concrete oracles. -/
theorem backdoor_output_sorted_witness :
    (∀ c ∈ [[(2 : Int)], [-1, 3]], List.Sorted litLe c) ∧
      List.Sorted clauseLe [[(2 : Int)], [-1, 3]] :=
  backdoor_output_sorted minId cnfFixW [[1, 2, -3], [1, -2, 3]] [[2], [-1, 3]] (by rfl)

/-- C3 counterexample: two cubes over the same SET of magnitudes but listed
in different orders do raise the Input-Contract Violation, refuting the
set-based reading of the contract. -/
theorem set_equal_cubes_still_raise :
    ((([2, 1] : List Int).map Int.natAbs).toFinset =
        (([1, 2] : List Int).map Int.natAbs).toFinset) ∧
      backdoor_to_clauses minId cnfFix1 [[1, 2], [2, 1]] = .error (.assertCube [2, 1]) :=
  ⟨by decide, by rfl⟩

/-- C3 (amended): `backdoor_to_clauses` raises the Input-Contract Violation
iff some cube's positional LIST of variable magnitudes differs from the first
cube's list (same set in a different order still raises). -/
theorem backdoor_assertCube_iff (minimize : Expr → List Expr) (toCNF : Expr → Expr)
    (c0 : List Int) (rest : List (List Int)) :
    (∃ c, backdoor_to_clauses minimize toCNF (c0 :: rest) = .error (.assertCube c)) ↔
      ∃ c ∈ c0 :: rest, c.map Int.natAbs ≠ c0.map Int.natAbs := by
  constructor
  · rintro ⟨c, hc⟩
    exact (cubes_assertCube_iff c0 rest).1
      ⟨c, (backdoor_assertCube_iff_cubes minimize toCNF (c0 :: rest) c).1 hc⟩
  · intro h
    obtain ⟨c, hc⟩ := (cubes_assertCube_iff c0 rest).2 h
    exact ⟨c, (backdoor_assertCube_iff_cubes minimize toCNF (c0 :: rest) c).2 hc⟩

/-- C4: after a successful cube encoding, the pipeline fails with the
cardinality (`ValueError`) error whenever the minimizer oracle's result
collection does not have size exactly one, and proceeds to the CNF/encoding
stage exactly when it is a singleton. -/
theorem backdoor_cardinality (minimize : Expr → List Expr) (toCNF : Expr → Expr)
    (easy : List (List Int)) (dnf : Expr) (hd : cubes_to_dnf easy = .ok dnf) :
    ((minimize_dnf minimize dnf).length ≠ 1 →
      backdoor_to_clauses minimize toCNF easy = .error .unpackError) ∧
    (∀ m, minimize_dnf minimize dnf = [m] →
      backdoor_to_clauses minimize toCNF easy = cnf_to_clauses (toCNF (Expr.not m))) := by
  constructor
  · intro hlen
    unfold backdoor_to_clauses
    rw [hd, except_bind_ok]
    cases hm : minimize_dnf minimize dnf with
    | nil => rfl
    | cons a t =>
      cases t with
      | nil => rw [hm] at hlen; exact absurd (rfl : ([a] : List Expr).length = 1) hlen
      | cons b t2 => rfl
  · intro m hm
    exact backdoor_eq_cnf_to_clauses hd hm

/-- C4 witness: an oracle returning zero covers trips the cardinality error. -/
theorem backdoor_cardinality_witness :
    backdoor_to_clauses minNone cnfFix1 [[1]] = .error .unpackError :=
  (backdoor_cardinality minNone cnfFix1 [[1]] (Expr.or [Expr.and [litE 1]])
    (by rfl)).1 (by decide)

/-- C5: a batch containing a cube whose variable magnitudes mismatch the
first cube's raises the Input-Contract Violation and the minimizer oracle is
never invoked. -/
theorem mismatch_raises_before_minimize (minimize : Expr → List Expr)
    (toCNF : Expr → Expr) (c0 : List Int) (rest : List (List Int))
    (h : ∃ c ∈ c0 :: rest, (c.map Int.natAbs).toFinset ≠ (c0.map Int.natAbs).toFinset) :
    (backdoor_to_clauses_traced minimize toCNF (c0 :: rest)).2 = false ∧
    ∃ c, (backdoor_to_clauses_traced minimize toCNF (c0 :: rest)).1 =
      .error (.assertCube c) := by
  obtain ⟨c, hmem, hset⟩ := h
  have hne : c.map Int.natAbs ≠ c0.map Int.natAbs := fun he => hset (by rw [he])
  obtain ⟨cw, hcw⟩ := (cubes_assertCube_iff c0 rest).2 ⟨c, hmem, hne⟩
  rw [traced_err hcw]
  exact ⟨rfl, ⟨cw, rfl⟩⟩

/-- C5 witness: the spec's example, cube over {1,2,3} against cube over
{1,2,4}. -/
theorem mismatch_raises_before_minimize_witness :
    (backdoor_to_clauses_traced minId cnfFix1 [[1, 2, 3], [1, 2, 4]]).2 = false ∧
    ∃ c, (backdoor_to_clauses_traced minId cnfFix1 [[1, 2, 3], [1, 2, 4]]).1 =
      .error (.assertCube c) :=
  mismatch_raises_before_minimize minId cnfFix1 [1, 2, 3] [[1, 2, 4]]
    ⟨[1, 2, 4], by decide, by decide⟩

/-- C6: the pipeline is a pure function of its input and its (deterministic)
oracles — two runs on the same batch with the same oracles return the same
clause list. -/
theorem backdoor_deterministic (m1 m2 : Expr → List Expr) (t1 t2 : Expr → Expr)
    (e1 e2 : List (List Int)) (hm : m1 = m2) (ht : t1 = t2) (he : e1 = e2) :
    backdoor_to_clauses m1 t1 e1 = backdoor_to_clauses m2 t2 e2 := by
  subst hm; subst ht; subst he; rfl

/-- C6 witness. -/
theorem backdoor_deterministic_witness :
    backdoor_to_clauses minId cnfFix1 [[1]] = backdoor_to_clauses minId cnfFix1 [[1]] :=
  backdoor_deterministic minId minId cnfFix1 cnfFix1 [[1]] [[1]] rfl rfl rfl

/-- C8: the empty batch fails with the `IndexError` from `cubes[0]` — not the
descriptive Input-Contract Violation — and the minimizer is never invoked. -/
theorem backdoor_empty_indexError (minimize : Expr → List Expr) (toCNF : Expr → Expr) :
    backdoor_to_clauses_traced minimize toCNF [] = (.error .indexError, false) ∧
    backdoor_to_clauses minimize toCNF [] = .error .indexError :=
  ⟨rfl, rfl⟩

/-- C10: the nonzero-literal precondition is never checked — any batch whose
cubes agree positionally on magnitudes passes the consistency assert, and the
literal `0` is encoded as a positive occurrence of the variable with id 0. -/
theorem zero_literal_accepted (c0 : List Int) (rest : List (List Int))
    (h : ∀ c ∈ c0 :: rest, c.map Int.natAbs = c0.map Int.natAbs) :
    (∃ dnf, cubes_to_dnf (c0 :: rest) = .ok dnf) ∧
    litE 0 = .var (exprvar "x" 0) :=
  ⟨⟨_, cubes_to_dnf_ok c0 rest h⟩, rfl⟩

/-- C10 witness: cubes containing the literal 0 at the same position. -/
theorem zero_literal_accepted_witness :
    (∃ dnf, cubes_to_dnf [[0, 1], [0, -1]] = .ok dnf) ∧
    litE 0 = .var (exprvar "x" 0) :=
  zero_literal_accepted [0, 1] [[0, -1]] (by decide)

/-- C9: every variable handle the cube encoder allocates is `exprvar "x" v`
for an input magnitude `v`, and the clause encoder's re-derivation
(`indices[0]` with the literal's polarity as sign) recovers exactly `v`. -/
theorem handle_roundtrip (easy : List (List Int)) (dnf : Expr)
    (hd : cubes_to_dnf easy = .ok dnf) :
    (∀ x ∈ exprVars dnf, ∃ v ∈ inputMags easy, x = exprvar "x" v) ∧
    (∀ v : Nat, litToInt (.var (exprvar "x" v)) = (v : Int) ∧
      litToInt (.not (.var (exprvar "x" v))) = -(v : Int)) := by
  obtain ⟨c0, rest, heq, hall, hdnf⟩ := cubes_to_dnf_ok_inv hd
  subst hdnf
  refine ⟨fun x hx => mem_exprVars_dnf hx, fun v => ⟨?_, ?_⟩⟩
  · rw [litToInt_var]; rfl
  · rw [litToInt_negvar]; rfl

/-- C9 witness. -/
theorem handle_roundtrip_witness :
    (∀ x ∈ exprVars (Expr.or [Expr.and [litE 1, litE (-2)]]),
      ∃ v ∈ inputMags [[1, -2]], x = exprvar "x" v) ∧
    (∀ v : Nat, litToInt (.var (exprvar "x" v)) = (v : Int) ∧
      litToInt (.not (.var (exprvar "x" v))) = -(v : Int)) :=
  handle_roundtrip [[1, -2]] (Expr.or [Expr.and [litE 1, litE (-2)]]) (by rfl)

/-- C1: when the minimizer's single cover is logically equivalent to the
encoded DNF and the CNF conversion is equivalence-preserving (with 1-based
variable indices), the conjunction of the returned clauses is equivalent to
the negation of the disjunction of the input cubes. -/
theorem backdoor_semantic_roundtrip (minimize : Expr → List Expr) (toCNF : Expr → Expr)
    (easy : List (List Int)) (dnf m : Expr) (clauses : List (List Int))
    (hd : cubes_to_dnf easy = .ok dnf)
    (hm : minimize_dnf minimize dnf = [m])
    (hms : ∀ σ, eval σ m = eval σ dnf)
    (hc : cnf_to_clauses (toCNF (Expr.not m)) = .ok clauses)
    (hcs : ∀ σ, eval σ (toCNF (Expr.not m)) = eval σ (Expr.not m))
    (hidx : ∀ x ∈ exprVars (toCNF (Expr.not m)), 1 ≤ varIdx x) :
    backdoor_to_clauses minimize toCNF easy = .ok clauses ∧
    ∀ σ : Nat → Bool, clausesEval σ clauses = !(cubesEval σ easy) := by
  refine ⟨by rw [backdoor_eq_cnf_to_clauses hd hm]; exact hc, fun σ => ?_⟩
  rw [cnf_to_clauses_eval σ hc hidx, hcs, eval_not, hms]
  obtain ⟨c0, rest, heq, hall, hdnf⟩ := cubes_to_dnf_ok_inv hd
  rw [hdnf, eval_dnf_built]

/-- C1 witness: single cube `[1]`, identity minimizer, and the constant CNF
converter `¬x1`, checked under the all-true assignment. -/
theorem backdoor_semantic_roundtrip_witness :
    backdoor_to_clauses minId cnfFix1 [[1]] = .ok [[-1]] ∧
    clausesEval (fun _ => true) [[-1]] = !(cubesEval (fun _ => true) [[1]]) := by
  have h := backdoor_semantic_roundtrip minId cnfFix1 [[1]]
    (Expr.or [Expr.and [litE 1]]) (Expr.or [Expr.and [litE 1]]) [[-1]]
    rfl rfl (fun σ => rfl) (by rfl)
    (by
      intro σ
      show eval σ (Expr.not (.var (exprvar "x" 1))) =
        eval σ (Expr.not (Expr.or [Expr.and [litE 1]]))
      simp [litE])
    (by
      intro x hx
      have hx2 : x = exprvar "x" 1 := by
        simpa [cnfFix1] using hx
      subst hx2
      decide)
  exact ⟨h.1, h.2 (fun _ => true)⟩

/-- C7: if neither the minimizer nor the CNF conversion introduces new
variables, the absolute value of every literal of every returned clause is
one of the input batch's variable magnitudes. -/
theorem backdoor_output_vars (minimize : Expr → List Expr) (toCNF : Expr → Expr)
    (easy : List (List Int)) (dnf m : Expr) (clauses : List (List Int))
    (hd : cubes_to_dnf easy = .ok dnf)
    (hm : minimize_dnf minimize dnf = [m])
    (hsm : ∀ x ∈ exprVars m, x ∈ exprVars dnf)
    (hc : cnf_to_clauses (toCNF (Expr.not m)) = .ok clauses)
    (hsc : ∀ x ∈ exprVars (toCNF (Expr.not m)), x ∈ exprVars (Expr.not m)) :
    backdoor_to_clauses minimize toCNF easy = .ok clauses ∧
    ∀ c ∈ clauses, ∀ l ∈ c, l.natAbs ∈ inputMags easy := by
  refine ⟨by rw [backdoor_eq_cnf_to_clauses hd hm]; exact hc, ?_⟩
  obtain ⟨hcnf, rfl⟩ := cnf_to_clauses_ok_inv hc
  intro c hcmem l hlmem
  have hcmem2 := (List.perm_insertionSort clauseLe _).mem_iff.1 hcmem
  rw [List.mem_map] at hcmem2
  obtain ⟨cl, hclmem, rfl⟩ := hcmem2
  have hlmem2 := (List.perm_insertionSort litLe _).mem_iff.1 hlmem
  rw [List.mem_map] at hlmem2
  obtain ⟨le, hle, rfl⟩ := hlmem2
  have hlit := extract_isLit hcnf cl hclmem le hle
  obtain ⟨c0, rest, heq, hall, hdnf⟩ := cubes_to_dnf_ok_inv hd
  cases le with
  | var x =>
    have hxin : x ∈ exprVars (toCNF (Expr.not m)) :=
      extract_vars hclmem hle (by simp)
    have hxdnf : x ∈ exprVars dnf := hsm x (by simpa using hsc x hxin)
    rw [hdnf] at hxdnf
    obtain ⟨v, hv, rfl⟩ := mem_exprVars_dnf hxdnf
    rw [litToInt_var]
    simpa [varIdx, exprvar] using hv
  | not e =>
    cases e with
    | var x =>
      have hxin : x ∈ exprVars (toCNF (Expr.not m)) :=
        extract_vars hclmem hle (by simp)
      have hxdnf : x ∈ exprVars dnf := hsm x (by simpa using hsc x hxin)
      rw [hdnf] at hxdnf
      obtain ⟨v, hv, rfl⟩ := mem_exprVars_dnf hxdnf
      rw [litToInt_negvar]
      simpa [varIdx, exprvar] using hv
    | not e => exact absurd hlit (by simp [isLit])
    | and es => exact absurd hlit (by simp [isLit])
    | or es => exact absurd hlit (by simp [isLit])
  | and es => exact absurd hlit (by simp [isLit])
  | or es => exact absurd hlit (by simp [isLit])

/-- C7 witness. -/
theorem backdoor_output_vars_witness :
    backdoor_to_clauses minId cnfVar1 [[1]] = .ok [[1]] ∧
    ∀ c ∈ [[(1 : Int)]], ∀ l ∈ c, l.natAbs ∈ inputMags [[1]] :=
  backdoor_output_vars minId cnfVar1 [[1]]
    (Expr.or [Expr.and [litE 1]]) (Expr.or [Expr.and [litE 1]]) [[1]]
    rfl rfl (fun x hx => hx) (by rfl)
    (by
      intro x hx
      have hx2 : x = exprvar "x" 1 := by
        simpa [cnfVar1] using hx
      subst hx2
      rw [exprVars_not]
      refine mem_exprVars_or.2 ⟨Expr.and [litE 1], by simp, ?_⟩
      refine mem_exprVars_and.2 ⟨litE 1, by simp, ?_⟩
      rw [exprVars_litE]
      simp)

end SatNexus
